import Mathlib

set_option maxHeartbeats 1000000

/-!
Shallow embedding of `build_webcontent.py` (ProductivityBloom).

Python strings are modelled as `List Char`.  Each Python function of the
source is translated to an executable Lean definition with the same name;
regex-based rewrites are translated into explicit left-to-right scans with
the exact semantics of the `re.sub` calls in the source (leftmost match,
non-greedy `.*?`, non-overlapping continuation after each match).
Definitions that need to skip past a matched pattern recurse on a fuel
argument equal to the input length, so that they stay structurally
recursive and kernel-evaluable; one scanning step always consumes at least
one character, so the fuel never runs out on real inputs.
-/

/-- ASCII whitespace set used by Python's `str.strip` and the regex class
`\s` (space, tab, newline, carriage return, vertical tab, form feed);
non-ASCII Unicode whitespace is outside the scope of this model. -/
def pyIsSpace (c : Char) : Bool :=
  c = ' ' || c = '\t' || c = '\n' || c = '\r' || c = '\x0b' || c = '\x0c'

/-- The per-character escape table exactly as the spec words it
(`4.5 Literal Escaper`, in this exact precedence order): backslash → two
backslashes, double-quote → backslash+quote, newline → backslash+`n`,
carriage return → dropped, tab → backslash+`t`, anything else unchanged. -/
def escCharSpec (c : Char) : List Char :=
  if c = '\\' then ['\\', '\\']
  else if c = '"' then ['\\', '"']
  else if c = '\n' then ['\\', 'n']
  else if c = '\r' then []
  else if c = '\t' then ['\\', 't']
  else [c]

/-- `escape_for_c` from the source: a loop over the characters of the
input appending each character's escape to an accumulator list, joined at
the end (the join is concatenation of the accumulated pieces, which the
accumulator already performs). -/
def escape_for_c (content : List Char) : List Char :=
  content.foldl (fun result c =>
    if c = '\\' then result ++ ['\\', '\\']
    else if c = '"' then result ++ ['\\', '"']
    else if c = '\n' then result ++ ['\\', 'n']
    else if c = '\r' then result
    else if c = '\t' then result ++ ['\\', 't']
    else result ++ [c]) []

/-- Number of newline escape sequences seen when the output is scanned
left to right consuming one escape (a backslash together with the
character after it) at a time — the way a consumer of the generated
string literal reads it. -/
def countNEsc : List Char → Nat
  | [] => 0
  | [_] => 0
  | a :: b :: rest =>
    if a = '\\' then
      (if b = 'n' then 1 + countNEsc rest else countNEsc rest)
    else countNEsc (b :: rest)

/-- Number of positions at which the two-character sequence `a, b` occurs
in a list (plain substring counting, the reading used by the claim). -/
def countSeq2 (a b : Char) : List Char → Nat
  | x :: y :: rest => (if x = a ∧ y = b then 1 else 0) + countSeq2 a b (y :: rest)
  | _ => 0

theorem escape_foldl_general (s acc : List Char) :
    (s.foldl (fun result c =>
      if c = '\\' then result ++ ['\\', '\\']
      else if c = '"' then result ++ ['\\', '"']
      else if c = '\n' then result ++ ['\\', 'n']
      else if c = '\r' then result
      else if c = '\t' then result ++ ['\\', 't']
      else result ++ [c]) acc)
    = acc ++ (s.map escCharSpec).flatten := by
  induction s generalizing acc with
  | nil => simp
  | cons c rest ih =>
    have hstep : (if c = '\\' then acc ++ ['\\', '\\']
        else if c = '"' then acc ++ ['\\', '"']
        else if c = '\n' then acc ++ ['\\', 'n']
        else if c = '\r' then acc
        else if c = '\t' then acc ++ ['\\', 't']
        else acc ++ [c]) = acc ++ escCharSpec c := by
      simp only [escCharSpec]
      split_ifs <;> simp
    simp only [List.foldl_cons, hstep, List.map_cons, List.flatten_cons, ih,
      List.append_assoc]

theorem escape_for_c_eq (s : List Char) :
    escape_for_c s = (s.map escCharSpec).flatten := by
  simpa using escape_foldl_general s []

theorem escape_for_c_nil : escape_for_c [] = [] := rfl

theorem escape_for_c_append (a b : List Char) :
    escape_for_c (a ++ b) = escape_for_c a ++ escape_for_c b := by
  simp [escape_for_c_eq]

theorem countNEsc_escCharSpec (c : Char) (t : List Char) :
    countNEsc (escCharSpec c ++ t) = (if c = '\n' then 1 else 0) + countNEsc t := by
  by_cases h1 : c = '\\'
  · subst h1; simp [escCharSpec, countNEsc]
  · by_cases h2 : c = '"'
    · subst h2; simp [escCharSpec, countNEsc]
    · by_cases h3 : c = '\n'
      · subst h3; simp [escCharSpec, countNEsc]
      · by_cases h4 : c = '\r'
        · subst h4; simp [escCharSpec, countNEsc, h3]
        · by_cases h5 : c = '\t'
          · subst h5; simp [escCharSpec, countNEsc]
          · simp only [escCharSpec, h1, h2, h3, h4, h5, if_false, if_neg]
            cases t with
            | nil => simp [countNEsc]
            | cons b rest => simp [countNEsc, h1]

theorem countNEsc_escape (s : List Char) :
    countNEsc (escape_for_c s) = s.count '\n' := by
  rw [escape_for_c_eq]
  induction s with
  | nil => simp [countNEsc]
  | cons c rest ih =>
    simp only [List.map_cons, List.flatten_cons, countNEsc_escCharSpec, ih,
      List.count_cons]
    by_cases h : c = '\n'
    · subst h; simp [Nat.add_comm]
    · simp [h, Ne.symm h]

theorem escape_drops_cr (s : List Char) :
    escape_for_c s = escape_for_c (s.filter (fun c => c ≠ '\r')) := by
  simp only [escape_for_c_eq]
  induction s with
  | nil => simp
  | cons c rest ih =>
    by_cases h : c = '\r'
    · subst h
      simpa [escCharSpec] using ih
    · simp [List.filter_cons, h, ih]

/-- C5: the Literal Escaper processes its input character by character, in
order, mapping each character independently by the exact precedence table
of the spec (backslash → two backslashes, quote → backslash+quote,
newline → backslash+`n`, carriage return → dropped, tab → backslash+`t`,
other characters unchanged); the output is the in-order concatenation of
the per-character results. -/
theorem c5_escape_per_char (s : List Char) :
    escape_for_c s = (s.map escCharSpec).flatten :=
  escape_for_c_eq s

/-- C9: the Literal Escaper is a monoid homomorphism for concatenation:
it maps the empty string to the empty string and a concatenation to the
concatenation of the images. -/
theorem c9_escape_monoid_hom :
    escape_for_c [] = [] ∧
    ∀ a b : List Char, escape_for_c (a ++ b) = escape_for_c a ++ escape_for_c b :=
  ⟨escape_for_c_nil, escape_for_c_append⟩

/-- C3, counterexample: on the two-character input backslash,`n` (which
contains no newline) the escaped output is backslash,backslash,`n`, which
contains one occurrence of the two-character sequence backslash-`n`; so
the count of that substring in the output does not equal the newline count
of the input, refuting the claim as stated. -/
theorem c3_counterexample :
    ¬ (List.count '\n' ['\\', 'n'] = countSeq2 '\\' 'n' (escape_for_c ['\\', 'n'])) := by
  decide

/-- C3, amended: the Literal Escaper is a deterministic function; every
carriage return of the input has no corresponding character in the output
(escaping an input equals escaping the input with carriage returns
removed); and the newline count of the input equals the number of
newline escape sequences in the output when the output is scanned left to
right consuming one escape (backslash plus following character) at a
time.  (Plain substring counting of backslash-`n` overcounts when the
input holds a literal backslash directly followed by `n`.) -/
theorem c3_escaper_amended (s : List Char) :
    escape_for_c s = escape_for_c (s.filter (fun c => c ≠ '\r')) ∧
    countNEsc (escape_for_c s) = s.count '\n' :=
  ⟨escape_drops_cr s, countNEsc_escape s⟩

/-! ## JS Normalizer (`minify_js`) -/

/-- Python `content.split(newline)`: the list of newline-separated pieces
(one more piece than there are newlines; pieces contain no newline). -/
def splitNl : List Char → List (List Char)
  | [] => [[]]
  | c :: rest =>
    if c = '\n' then [] :: splitNl rest
    else
      match splitNl rest with
      | l :: ls => (c :: l) :: ls
      | [] => [[c]]

/-- Python `sep.join(pieces)`. -/
def joinWith (sep : List Char) : List (List Char) → List Char
  | [] => []
  | [x] => x
  | x :: y :: ys => x ++ sep ++ joinWith sep (y :: ys)

/-- Removes the longest suffix whose characters all satisfy `p`. -/
def dropTrailing (p : Char → Bool) : List Char → List Char
  | [] => []
  | c :: rest =>
    match dropTrailing p rest with
    | [] => if p c then [] else [c]
    | l => c :: l

/-- Python `str.strip()`: remove leading and trailing whitespace. -/
def strip (l : List Char) : List Char :=
  dropTrailing pyIsSpace (l.dropWhile pyIsSpace)

/-- `minify_js` from the source: split into lines, strip each line, keep
the non-empty ones in the order met (accumulator loop, as in the source),
and re-join with newline characters. -/
def minify_js (content : List Char) : List Char :=
  let lines := splitNl content
  let result := lines.foldl (fun result line =>
    let stripped := strip line
    if stripped = [] then result else result ++ [stripped]) []
  joinWith ['\n'] result

/-- The non-empty stripped lines of a text, in order. -/
def susLines (content : List Char) : List (List Char) :=
  ((splitNl content).map strip).filter (fun l => !l.isEmpty)

theorem splitNl_ne_nil (s : List Char) : splitNl s ≠ [] := by
  cases s with
  | nil => simp [splitNl]
  | cons c rest =>
    simp only [splitNl]
    split
    · simp
    · split <;> simp

theorem minify_js_foldl_general (ls : List (List Char)) (acc : List (List Char)) :
    (ls.foldl (fun result line =>
      let stripped := strip line
      if stripped = [] then result else result ++ [stripped]) acc)
    = acc ++ (ls.map strip).filter (fun l => !l.isEmpty) := by
  induction ls generalizing acc with
  | nil => simp
  | cons x xs ih =>
    simp only [List.foldl_cons, List.map_cons, List.filter_cons, ih]
    by_cases h : strip x = []
    · simp [h]
    · simp [h, List.isEmpty_iff, List.append_assoc]

theorem minify_js_eq (s : List Char) :
    minify_js s = joinWith ['\n'] (susLines s) := by
  simp [minify_js, susLines, minify_js_foldl_general]

theorem splitNl_no_nl (x : List Char) (hx : '\n' ∉ x) : splitNl x = [x] := by
  induction x with
  | nil => rfl
  | cons c rest ih =>
    have hc : c ≠ '\n' := fun h => hx (h ▸ List.mem_cons_self c rest)
    have hrest : '\n' ∉ rest := fun h => hx (List.mem_cons_of_mem c h)
    simp [splitNl, hc, ih hrest]

theorem splitNl_append_nl (x t : List Char) (hx : '\n' ∉ x) :
    splitNl (x ++ '\n' :: t) = x :: splitNl t := by
  induction x with
  | nil => simp [splitNl]
  | cons c rest ih =>
    have hc : c ≠ '\n' := fun h => hx (h ▸ List.mem_cons_self c rest)
    have hrest : '\n' ∉ rest := fun h => hx (List.mem_cons_of_mem c h)
    simp only [List.cons_append, splitNl, if_neg hc]
    rw [show rest.append ('\n' :: t) = rest ++ '\n' :: t from rfl, ih hrest]

theorem splitNl_joinWith (L : List (List Char)) (hne : L ≠ [])
    (hnl : ∀ x ∈ L, '\n' ∉ x) :
    splitNl (joinWith ['\n'] L) = L := by
  induction L with
  | nil => exact absurd rfl hne
  | cons x xs ih =>
    cases xs with
    | nil =>
      simp only [joinWith]
      exact splitNl_no_nl x (hnl x (List.mem_cons_self x []))
    | cons y ys =>
      have hx : '\n' ∉ x := hnl x (List.mem_cons_self x (y :: ys))
      have hrest : ∀ z ∈ y :: ys, '\n' ∉ z :=
        fun z hz => hnl z (List.mem_cons_of_mem x hz)
      simp only [joinWith]
      rw [List.append_assoc, List.singleton_append, splitNl_append_nl x _ hx,
        ih (by simp) hrest]

theorem dropTrailing_eq_take (p : Char → Bool) (l : List Char) :
    ∃ n, dropTrailing p l = l.take n := by
  induction l with
  | nil => exact ⟨0, rfl⟩
  | cons c rest ih =>
    obtain ⟨n, hn⟩ := ih
    simp only [dropTrailing]
    cases hdt : dropTrailing p rest with
    | nil =>
      by_cases hc : p c
      · exact ⟨0, by simp [hc]⟩
      · exact ⟨1, by simp [hc]⟩
    | cons d ds =>
      refine ⟨n + 1, ?_⟩
      simp [← hdt, hn]

theorem mem_dropTrailing {p : Char → Bool} {x : Char} {l : List Char}
    (h : x ∈ dropTrailing p l) : x ∈ l := by
  obtain ⟨n, hn⟩ := dropTrailing_eq_take p l
  rw [hn] at h
  exact List.mem_of_mem_take h

theorem dropTrailing_cons_eq (p : Char → Bool) (c : Char) (rest : List Char) :
    dropTrailing p (c :: rest) =
      match dropTrailing p rest with
      | [] => if p c then [] else [c]
      | l => c :: l := rfl

theorem dropTrailing_idempotent (p : Char → Bool) (l : List Char) :
    dropTrailing p (dropTrailing p l) = dropTrailing p l := by
  induction l with
  | nil => rfl
  | cons c rest ih =>
    cases hdt : dropTrailing p rest with
    | nil =>
      by_cases hc : p c
      · simp [dropTrailing_cons_eq, hdt, hc, dropTrailing]
      · simp [dropTrailing_cons_eq, hdt, hc, dropTrailing]
    | cons d ds =>
      rw [hdt] at ih
      have h1 : dropTrailing p (c :: rest) = c :: d :: ds := by
        rw [dropTrailing_cons_eq, hdt]
      rw [h1, dropTrailing_cons_eq, ih]

theorem dropTrailing_cons_shape (p : Char → Bool) (c : Char) (rest : List Char) :
    dropTrailing p (c :: rest) = [] ∨
    ∃ t, dropTrailing p (c :: rest) = c :: t := by
  simp only [dropTrailing]
  cases dropTrailing p rest with
  | nil =>
    by_cases hc : p c
    · exact Or.inl (by simp [hc])
    · exact Or.inr ⟨[], by simp [hc]⟩
  | cons d ds => exact Or.inr ⟨d :: ds, rfl⟩

theorem dropWhile_head_not {p : Char → Bool} {l : List Char} {c : Char}
    {t : List Char} (h : l.dropWhile p = c :: t) : p c = false := by
  have := List.head?_dropWhile_not p l
  rw [h] at this
  simpa using this

theorem strip_idempotent (l : List Char) : strip (strip l) = strip l := by
  unfold strip
  have hmid : (dropTrailing pyIsSpace (l.dropWhile pyIsSpace)).dropWhile pyIsSpace
      = dropTrailing pyIsSpace (l.dropWhile pyIsSpace) := by
    cases hdw : l.dropWhile pyIsSpace with
    | nil => rfl
    | cons c t =>
      have hc : pyIsSpace c = false := dropWhile_head_not hdw
      rcases dropTrailing_cons_shape pyIsSpace c t with h0 | ⟨t', ht'⟩
      · simp [h0]
      · simp [ht', List.dropWhile_cons, hc]
  rw [hmid, dropTrailing_idempotent]

theorem mem_strip {x : Char} {l : List Char} (h : x ∈ strip l) : x ∈ l := by
  have h1 : x ∈ l.dropWhile pyIsSpace := mem_dropTrailing h
  exact (List.dropWhile_sublist pyIsSpace).mem h1

theorem splitNl_no_mem_nl (s : List Char) : ∀ x ∈ splitNl s, '\n' ∉ x := by
  induction s with
  | nil =>
    intro x hx
    simp only [splitNl, List.mem_singleton] at hx
    simp [hx]
  | cons c rest ih =>
    intro x hx
    simp only [splitNl] at hx
    by_cases hc : c = '\n'
    · rw [if_pos hc] at hx
      rcases List.mem_cons.mp hx with h | h
      · simp [h]
      · exact ih x h
    · rw [if_neg hc] at hx
      cases hsp : splitNl rest with
      | nil => exact absurd hsp (splitNl_ne_nil rest)
      | cons l ls =>
        rw [hsp] at hx
        rcases List.mem_cons.mp hx with h | h
        · subst h
          intro hmem
          rcases List.mem_cons.mp hmem with h' | h'
          · exact hc h'.symm
          · exact ih l (hsp ▸ List.mem_cons_self l ls) h'
        · exact ih x (hsp ▸ List.mem_cons_of_mem l h)

theorem susLines_mem {x : List Char} {s : List Char} (h : x ∈ susLines s) :
    strip x = x ∧ x ≠ [] ∧ '\n' ∉ x := by
  simp only [susLines, List.mem_filter, List.mem_map] at h
  obtain ⟨⟨line, hline, hx⟩, hne⟩ := h
  subst hx
  refine ⟨strip_idempotent line, by simpa [List.isEmpty_iff] using hne, ?_⟩
  intro hmem
  exact splitNl_no_mem_nl s line hline (mem_strip hmem)

theorem susLines_minify_js (s : List Char) :
    susLines (minify_js s) = susLines s := by
  rw [minify_js_eq]
  cases hL : susLines s with
  | nil => simp [susLines, joinWith, splitNl, strip, dropTrailing]
  | cons x xs =>
    rw [← hL]
    have hsplit : splitNl (joinWith ['\n'] (susLines s)) = susLines s := by
      refine splitNl_joinWith _ (by rw [hL]; simp) ?_
      intro y hy
      exact (susLines_mem hy).2.2
    have hmap : (susLines s).map strip = susLines s := by
      conv_rhs => rw [← List.map_id (susLines s)]
      refine List.map_congr_left ?_
      intro y hy
      simpa using (susLines_mem hy).1
    have hfil : (susLines s).filter (fun l => !l.isEmpty) = susLines s := by
      refine List.filter_eq_self.mpr ?_
      intro y hy
      simpa [List.isEmpty_iff] using (susLines_mem hy).2.1
    calc susLines (joinWith ['\n'] (susLines s))
        = ((splitNl (joinWith ['\n'] (susLines s))).map strip).filter
            (fun l => !l.isEmpty) := rfl
      _ = ((susLines s).map strip).filter (fun l => !l.isEmpty) := by rw [hsplit]
      _ = (susLines s).filter (fun l => !l.isEmpty) := by rw [hmap]
      _ = susLines s := hfil

/-- C4: the JS Normalizer's output has exactly the non-empty stripped
lines of the input, in the same order, each exactly stripped — the
output's non-empty stripped lines coincide with the input's — and the
output is exactly those surviving lines re-joined with single newline
characters; lines are never reordered or merged. -/
theorem c4_minify_js_lines (s : List Char) :
    susLines (minify_js s) = susLines s ∧
    minify_js s = joinWith ['\n'] (susLines s) :=
  ⟨susLines_minify_js s, minify_js_eq s⟩

/-- C10: the JS Normalizer is idempotent. -/
theorem c10_minify_js_idempotent (s : List Char) :
    minify_js (minify_js s) = minify_js s := by
  rw [minify_js_eq (minify_js s), susLines_minify_js, ← minify_js_eq]

/-! ## CSS Normalizer (`minify_css`) -/

/-- After an opening comment delimiter, the text following the first
closing `*/` (the non-greedy `.*?` of the regex finds the earliest one),
or `none` when the comment is never closed. -/
def findClose : List Char → Option (List Char)
  | '*' :: '/' :: rest => some rest
  | _ :: rest => findClose rest
  | [] => none

/-- One left-to-right pass of `re.sub` with pattern `/\*.*?\*/` and empty
replacement (DOTALL): at each position, if the text starts with `/*` and a
later `*/` exists, the whole leftmost-shortest match is dropped and the
scan continues after it; if no closing `*/` exists the rest of the text
can contain no further match (every closer would lie inside it) and is
kept as is.  The fuel argument is the input length; every step consumes
at least one character. -/
def stripCommentsF : Nat → List Char → List Char
  | 0, s => s
  | _ + 1, [] => []
  | fuel + 1, '/' :: '*' :: rest =>
    (match findClose rest with
     | some rest2 => stripCommentsF fuel rest2
     | none => '/' :: '*' :: rest)
  | fuel + 1, c :: rest => c :: stripCommentsF fuel rest

/-- `re.sub` of `/\*.*?\*/` with `''` (comment removal, step 1 of
`minify_css`). -/
def stripComments (s : List Char) : List Char :=
  stripCommentsF s.length s

/-- `re.sub` of `\s+` with a single space (whitespace collapsing, step 2
of `minify_css`): each maximal run of whitespace becomes one space. -/
def collapseWS : List Char → List Char
  | [] => []
  | [c] => if pyIsSpace c then [' '] else [c]
  | c1 :: c2 :: rest =>
    if pyIsSpace c1 && pyIsSpace c2 then collapseWS (c2 :: rest)
    else (if pyIsSpace c1 then ' ' else c1) :: collapseWS (c2 :: rest)

/-- The character class of the third `re.sub` of `minify_css`. -/
def isSpecial (c : Char) : Bool :=
  c = '\x7b' || c = '\x7d' || c = ':' || c = ';' || c = ','

/-- `re.sub` of the pattern "whitespace-run, special character,
whitespace-run" with just the special character (step 3 of `minify_css`),
as a left-to-right scan: a match starts at the current position exactly
when the whitespace run from here (possibly empty) is followed by a
special character; the match consumes that run, the character and the
trailing whitespace run, and only the character is emitted.  Fuel is the
input length; every step consumes at least one character. -/
def sub3F : Nat → List Char → List Char
  | 0, s => s
  | _ + 1, [] => []
  | fuel + 1, c :: rest =>
    (match (c :: rest).dropWhile pyIsSpace with
     | x :: r2 =>
       if isSpecial x then x :: sub3F fuel (r2.dropWhile pyIsSpace)
       else c :: sub3F fuel rest
     | [] => c :: rest)

/-- Step 3 of `minify_css`. -/
def sub3 (s : List Char) : List Char :=
  sub3F s.length s

/-- `minify_css` from the source: remove comments, collapse whitespace
runs, remove spaces around the special characters, strip the ends. -/
def minify_css (content : List Char) : List Char :=
  strip (sub3 (collapseWS (stripComments content)))

/-- Whether the text contains two adjacent whitespace characters
(equivalently, a whitespace run longer than one character). -/
def hasAdjWS : List Char → Bool
  | a :: b :: rest => (pyIsSpace a && pyIsSpace b) || hasAdjWS (b :: rest)
  | _ => false

/-- Whether the text contains an adjacent `*/` pair. -/
def hasCloseAfter : List Char → Bool
  | '*' :: '/' :: _ => true
  | _ :: rest => hasCloseAfter rest
  | [] => false

/-- Whether the text contains a complete comment span: a `/*` with a
later, non-overlapping `*/`. -/
def hasCommentSpan : List Char → Bool
  | '/' :: '*' :: rest => hasCloseAfter rest || hasCommentSpan rest
  | _ :: rest => hasCommentSpan rest
  | [] => false

/-- Whether the first character of the text is whitespace. -/
def headSpace : List Char → Bool
  | [] => false
  | c :: _ => pyIsSpace c

theorem hasAdjWS_nil : hasAdjWS [] = false := rfl

theorem hasAdjWS_single (a : Char) : hasAdjWS [a] = false := rfl

theorem hasAdjWS_cons2 (a b : Char) (t : List Char) :
    hasAdjWS (a :: b :: t) = ((pyIsSpace a && pyIsSpace b) || hasAdjWS (b :: t)) := rfl

theorem hasAdjWS_tail {a : Char} {l : List Char} (h : hasAdjWS (a :: l) = false) :
    hasAdjWS l = false := by
  cases l with
  | nil => rfl
  | cons b t =>
    rw [hasAdjWS_cons2] at h
    exact (Bool.or_eq_false_iff.mp h).2

theorem hasAdjWS_pair {a b : Char} {t : List Char}
    (h : hasAdjWS (a :: b :: t) = false) :
    (pyIsSpace a && pyIsSpace b) = false := by
  rw [hasAdjWS_cons2] at h
  exact (Bool.or_eq_false_iff.mp h).1

theorem band_false_left {a b : Bool} (h : (a && b) = false) (hb : b = true) :
    a = false := by
  cases a <;> simp_all

theorem band_true_parts {a b : Bool} (h : (a && b) = true) :
    a = true ∧ b = true := by
  cases a <;> cases b <;> simp_all

theorem bool_not_true {b : Bool} (h : ¬ b = true) : b = false := by
  cases b <;> simp_all

theorem pyIsSpace_space : pyIsSpace ' ' = true := by decide

theorem collapseWS_single_eq (c : Char) :
    collapseWS [c] = if pyIsSpace c then [' '] else [c] := rfl

theorem collapseWS_cons2_eq (c1 c2 : Char) (rest : List Char) :
    collapseWS (c1 :: c2 :: rest) =
      if pyIsSpace c1 && pyIsSpace c2 then collapseWS (c2 :: rest)
      else (if pyIsSpace c1 then ' ' else c1) :: collapseWS (c2 :: rest) := rfl

theorem hasAdjWS_dropWhile (p : Char → Bool) {l : List Char}
    (h : hasAdjWS l = false) : hasAdjWS (l.dropWhile p) = false := by
  induction l with
  | nil => rfl
  | cons a t ih =>
    rw [List.dropWhile_cons]
    by_cases hp : p a
    · simp only [hp, if_true]
      exact ih (hasAdjWS_tail h)
    · simp only [hp, if_false]
      exact h

theorem hasAdjWS_take {l : List Char} (h : hasAdjWS l = false) :
    ∀ n, hasAdjWS (l.take n) = false := by
  induction l with
  | nil => intro n; simp [hasAdjWS_nil]
  | cons a t ih =>
    intro n
    cases n with
    | zero => rfl
    | succ m =>
      rw [List.take_succ_cons]
      cases t with
      | nil => simp [hasAdjWS_single]
      | cons b t' =>
        cases m with
        | zero => simp [hasAdjWS_single]
        | succ k =>
          rw [List.take_succ_cons, hasAdjWS_cons2]
          have h2 : hasAdjWS ((b :: t').take (k + 1)) = false :=
            ih (hasAdjWS_tail h) (k + 1)
          rw [List.take_succ_cons] at h2
          simp [hasAdjWS_pair h, h2]

theorem hasAdjWS_dropTrailing (p : Char → Bool) {l : List Char}
    (h : hasAdjWS l = false) : hasAdjWS (dropTrailing p l) = false := by
  obtain ⟨n, hn⟩ := dropTrailing_eq_take p l
  rw [hn]
  exact hasAdjWS_take h n

theorem isSpecial_not_space {c : Char} (h : isSpecial c = true) :
    pyIsSpace c = false := by
  simp only [isSpecial, Bool.or_eq_true, decide_eq_true_eq] at h
  rcases h with ((((h | h) | h) | h) | h) <;> subst h <;> decide

theorem collapseWS_inv (s : List Char) :
    hasAdjWS (collapseWS s) = false ∧
    (headSpace (collapseWS s) = true → headSpace s = true) := by
  induction s with
  | nil => exact ⟨rfl, fun h => h⟩
  | cons c1 t ih =>
    cases t with
    | nil =>
      rw [collapseWS_single_eq]
      by_cases hc : pyIsSpace c1 = true
      · rw [if_pos hc]
        exact ⟨hasAdjWS_single _, fun _ => by simp [headSpace, hc]⟩
      · rw [if_neg hc]
        exact ⟨hasAdjWS_single _, fun h => h⟩
    | cons c2 rest =>
      obtain ⟨ih1, ih2⟩ := ih
      rw [collapseWS_cons2_eq]
      by_cases hb : (pyIsSpace c1 && pyIsSpace c2) = true
      · rw [if_pos hb]
        exact ⟨ih1, fun _ => by simp [headSpace, (band_true_parts hb).1]⟩
      · rw [if_neg hb]
        constructor
        · cases hR : collapseWS (c2 :: rest) with
          | nil => exact hasAdjWS_single _
          | cons r0 rr =>
            rw [hasAdjWS_cons2]
            have hr0 : pyIsSpace r0 = true → pyIsSpace c2 = true := by
              intro hr
              have hh : headSpace (collapseWS (c2 :: rest)) = true := by
                rw [hR]; simpa [headSpace] using hr
              simpa [headSpace] using ih2 hh
            have h1 : (pyIsSpace (if pyIsSpace c1 then ' ' else c1)
                && pyIsSpace r0) = false := by
              by_cases hc1 : pyIsSpace c1 = true
              · by_cases hr : pyIsSpace r0 = true
                · exact absurd (by simp [hc1, hr0 hr]) hb
                · simp [bool_not_true hr]
              · by_cases hr : pyIsSpace r0 = true
                · simp [hc1, bool_not_true hc1]
                · simp [bool_not_true hr]
            rw [hR] at ih1
            simp [h1, ih1]
        · intro h
          by_cases hc1 : pyIsSpace c1 = true
          · simp [headSpace, hc1]
          · simp [headSpace, hc1] at h

theorem sub3F_inv : ∀ (fuel : Nat) (s : List Char), hasAdjWS s = false →
    hasAdjWS (sub3F fuel s) = false ∧
    (headSpace (sub3F fuel s) = true → headSpace s = true) := by
  intro fuel
  induction fuel with
  | zero => exact fun s h => ⟨h, fun hh => hh⟩
  | succ f ih =>
    intro s h
    cases s with
    | nil => exact ⟨rfl, fun hh => hh⟩
    | cons c rest =>
      cases hdw : (c :: rest).dropWhile pyIsSpace with
      | nil =>
        have he : sub3F (f + 1) (c :: rest) = c :: rest := by
          simp [sub3F, hdw]
        rw [he]
        exact ⟨h, fun hh => hh⟩
      | cons x r2 =>
        by_cases hx : isSpecial x = true
        · have he : sub3F (f + 1) (c :: rest)
              = x :: sub3F f (r2.dropWhile pyIsSpace) := by
            simp [sub3F, hdw, hx]
          rw [he]
          have hr2 : hasAdjWS r2 = false := by
            have h1 : hasAdjWS ((c :: rest).dropWhile pyIsSpace) = false :=
              hasAdjWS_dropWhile _ h
            rw [hdw] at h1
            exact hasAdjWS_tail h1
          have hrec := ih (r2.dropWhile pyIsSpace) (hasAdjWS_dropWhile _ hr2)
          constructor
          · cases hR : sub3F f (r2.dropWhile pyIsSpace) with
            | nil => exact hasAdjWS_single x
            | cons r0 rr =>
              rw [hasAdjWS_cons2]
              rw [hR] at hrec
              simp [isSpecial_not_space hx, hrec.1]
          · intro hh
            simp [headSpace, isSpecial_not_space hx] at hh
        · have he : sub3F (f + 1) (c :: rest) = c :: sub3F f rest := by
            simp [sub3F, hdw, hx]
          rw [he]
          have hrec := ih rest (hasAdjWS_tail h)
          constructor
          · cases hR : sub3F f rest with
            | nil => exact hasAdjWS_single c
            | cons r0 rr =>
              rw [hasAdjWS_cons2]
              rw [hR] at hrec
              by_cases hr0 : pyIsSpace r0 = true
              · have h2 : headSpace rest = true := hrec.2 (by simp [headSpace, hr0])
                cases rest with
                | nil => simp [headSpace] at h2
                | cons d tl =>
                  have hd : pyIsSpace d = true := by simpa [headSpace] using h2
                  have hc : pyIsSpace c = false := band_false_left (hasAdjWS_pair h) hd
                  simp [hc, hrec.1]
              · simp [Bool.eq_false_iff.mpr hr0, hrec.1]
          · intro hh
            simp only [headSpace] at hh ⊢
            exact hh

theorem filter_nonWS_all_space {l : List Char}
    (h : ∀ a ∈ l, pyIsSpace a = true) :
    l.filter (fun c => !(pyIsSpace c)) = [] := by
  rw [List.filter_eq_nil_iff]
  intro a ha
  simp [h a ha]

theorem filter_nonWS_dropWhile (l : List Char) :
    (l.dropWhile pyIsSpace).filter (fun c => !(pyIsSpace c))
      = l.filter (fun c => !(pyIsSpace c)) := by
  conv_rhs => rw [← List.takeWhile_append_dropWhile pyIsSpace l]
  rw [List.filter_append,
    filter_nonWS_all_space (fun a ha => List.mem_takeWhile_imp ha)]
  simp

theorem collapseWS_filter (s : List Char) :
    (collapseWS s).filter (fun c => !(pyIsSpace c))
      = s.filter (fun c => !(pyIsSpace c)) := by
  induction s with
  | nil => rfl
  | cons c1 t ih =>
    cases t with
    | nil =>
      rw [collapseWS_single_eq]
      by_cases hc : pyIsSpace c1 = true
      · rw [if_pos hc]
        simp [List.filter_cons, pyIsSpace_space, hc]
      · rw [if_neg hc]
    | cons c2 rest =>
      rw [collapseWS_cons2_eq]
      by_cases hb : (pyIsSpace c1 && pyIsSpace c2) = true
      · rw [if_pos hb, ih]
        simp [List.filter_cons, (band_true_parts hb).1]
      · rw [if_neg hb]
        by_cases hc1 : pyIsSpace c1 = true
        · rw [if_pos hc1, List.filter_cons, List.filter_cons, ih]
          simp [pyIsSpace_space, hc1]
        · rw [if_neg hc1, List.filter_cons, List.filter_cons, ih]

theorem sub3F_filter : ∀ (fuel : Nat) (s : List Char),
    (sub3F fuel s).filter (fun c => !(pyIsSpace c))
      = s.filter (fun c => !(pyIsSpace c)) := by
  intro fuel
  induction fuel with
  | zero => intro s; rfl
  | succ f ih =>
    intro s
    cases s with
    | nil => rfl
    | cons c rest =>
      cases hdw : (c :: rest).dropWhile pyIsSpace with
      | nil =>
        have he : sub3F (f + 1) (c :: rest) = c :: rest := by
          simp [sub3F, hdw]
        rw [he]
      | cons x r2 =>
        by_cases hx : isSpecial x = true
        · have he : sub3F (f + 1) (c :: rest)
              = x :: sub3F f (r2.dropWhile pyIsSpace) := by
            simp [sub3F, hdw, hx]
          rw [he, List.filter_cons, ih, filter_nonWS_dropWhile]
          conv_rhs =>
            rw [← List.takeWhile_append_dropWhile pyIsSpace (c :: rest), hdw]
          rw [List.filter_append,
            filter_nonWS_all_space (fun a ha => List.mem_takeWhile_imp ha),
            List.nil_append, List.filter_cons]
        · have he : sub3F (f + 1) (c :: rest) = c :: sub3F f rest := by
            simp [sub3F, hdw, hx]
          rw [he, List.filter_cons, List.filter_cons, ih]

theorem dropTrailing_eq_nil_filter {p : Char → Bool} {l : List Char}
    (h : dropTrailing p l = []) : l.filter (fun c => !(p c)) = [] := by
  induction l with
  | nil => rfl
  | cons c t ih =>
    rw [dropTrailing_cons_eq] at h
    cases hdt : dropTrailing p t with
    | nil =>
      rw [hdt] at h
      by_cases hc : p c = true
      · simp [List.filter_cons, hc, ih hdt]
      · simp [hc] at h
    | cons d ds =>
      rw [hdt] at h
      simp at h

theorem dropTrailing_filter (p : Char → Bool) (l : List Char) :
    (dropTrailing p l).filter (fun c => !(p c))
      = l.filter (fun c => !(p c)) := by
  induction l with
  | nil => rfl
  | cons c t ih =>
    cases hdt : dropTrailing p t with
    | nil =>
      have he : dropTrailing p (c :: t) = if p c then [] else [c] := by
        rw [dropTrailing_cons_eq, hdt]
      have ht : t.filter (fun c => !(p c)) = [] := dropTrailing_eq_nil_filter hdt
      rw [he]
      by_cases hc : p c = true
      · simp [hc, List.filter_cons, ht]
      · simp [hc, List.filter_cons, ht]
    | cons d ds =>
      have he : dropTrailing p (c :: t) = c :: dropTrailing p t := by
        rw [dropTrailing_cons_eq, hdt]
      rw [he, List.filter_cons, List.filter_cons, ih]

theorem strip_filter (l : List Char) :
    (strip l).filter (fun c => !(pyIsSpace c))
      = l.filter (fun c => !(pyIsSpace c)) := by
  unfold strip
  rw [dropTrailing_filter, filter_nonWS_dropWhile]

theorem strip_noAdj {l : List Char} (h : hasAdjWS l = false) :
    hasAdjWS (strip l) = false :=
  hasAdjWS_dropTrailing _ (hasAdjWS_dropWhile _ h)

/-- C2, counterexample: the nine-character stylesheet `//**/*x*/` has at
least three bytes, yet `minify_css` maps it to `/*x*/`: removing the
leftmost non-greedy match `/**/` splices the surrounding text into a new
complete `/* ... */` span, so the output does contain such a span,
refuting the claim as stated. -/
theorem c2_counterexample :
    3 ≤ (['/', '/', '*', '*', '/', '*', 'x', '*', '/'] : List Char).length ∧
    hasCommentSpan (minify_css ['/', '/', '*', '*', '/', '*', 'x', '*', '/']) = true := by
  decide

/-- C2, amended: for every stylesheet input of at least three bytes, the
CSS Normalizer's output contains no whitespace run longer than one
character, and the comment-stripped input and the output carry the same
sequence of non-whitespace characters (so deleting spaces adjacent to the
special characters from both sides changes nothing about that sequence).
The no-comment-span conjunct of the original claim is dropped: removing a
leftmost non-greedy `/* ... */` match can splice the surrounding text
into a new complete span, which then stays in the output. -/
theorem c2_css_amended (s : List Char) (_h3 : 3 ≤ s.length) :
    hasAdjWS (minify_css s) = false ∧
    (minify_css s).filter (fun c => !(pyIsSpace c))
      = (stripComments s).filter (fun c => !(pyIsSpace c)) := by
  constructor
  · have h1 : hasAdjWS (collapseWS (stripComments s)) = false :=
      (collapseWS_inv (stripComments s)).1
    have h2 : hasAdjWS (sub3 (collapseWS (stripComments s))) = false :=
      (sub3F_inv _ _ h1).1
    exact strip_noAdj h2
  · unfold minify_css sub3
    rw [strip_filter, sub3F_filter, collapseWS_filter]

/-! ## HTML Assembler (`str.replace` substitutions of `main`) -/

/-- Python `s.replace(pat, repl)` for a non-empty pattern: replace every
non-overlapping occurrence, scanning left to right, and continue after
each replacement.  (The source only ever calls it with the two fixed,
non-empty tag strings; the `pat` non-empty guard makes the definition
total without modelling Python's special empty-pattern behaviour.)  Fuel
is the input length; every step consumes at least one character. -/
def replaceAllF (pat repl : List Char) : Nat → List Char → List Char
  | 0, s => s
  | _ + 1, [] => []
  | fuel + 1, c :: rest =>
    if pat ≠ [] ∧ (c :: rest).take pat.length = pat then
      repl ++ replaceAllF pat repl fuel ((c :: rest).drop pat.length)
    else c :: replaceAllF pat repl fuel rest

/-- `html.replace(pat, repl)` as called on lines 58-59 of the source. -/
def replaceAll (s pat repl : List Char) : List Char :=
  replaceAllF pat repl s.length s

/-- The left-to-right non-overlapping split of a text on a pattern (the
pieces between the occurrences), mirroring the scan of `replaceAllF`. -/
def splitPF (pat : List Char) : Nat → List Char → List (List Char)
  | 0, s => [s]
  | _ + 1, [] => [[]]
  | fuel + 1, c :: rest =>
    if pat ≠ [] ∧ (c :: rest).take pat.length = pat then
      [] :: splitPF pat fuel ((c :: rest).drop pat.length)
    else
      match splitPF pat fuel rest with
      | l :: ls => (c :: l) :: ls
      | [] => [[c]]

/-- The split of a text on a pattern. -/
def splitP (pat s : List Char) : List (List Char) :=
  splitPF pat s.length s

/-- Whether the pattern occurs as a contiguous substring. -/
def hasOccur (pat : List Char) : List Char → Bool
  | [] => decide (pat = [])
  | c :: rest => decide ((c :: rest).take pat.length = pat) || hasOccur pat rest

/-- The literal stylesheet link tag of line 58. -/
def linkTag : List Char := "<link rel=\"stylesheet\" href=\"style.css\">".data

/-- The literal script tag of line 59. -/
def scriptTag : List Char := "<script src=\"app.js\"></script>".data

/-- The inline replacement for the link tag. -/
def styleRepl (css : List Char) : List Char :=
  "<style>".data ++ css ++ "</style>".data

/-- The inline replacement for the script tag. -/
def scriptRepl (js : List Char) : List Char :=
  "<script>".data ++ js ++ "</script>".data

/-- Lines 58-59 of `main`: substitute the link tag with the inline style
element, then the script tag with the inline script element. -/
def assemble (html css js : List Char) : List Char :=
  replaceAll (replaceAll html linkTag (styleRepl css)) scriptTag (scriptRepl js)

theorem replaceAllF_cons_eq (pat repl : List Char) (fuel : Nat) (c : Char)
    (rest : List Char) :
    replaceAllF pat repl (fuel + 1) (c :: rest) =
      if pat ≠ [] ∧ (c :: rest).take pat.length = pat then
        repl ++ replaceAllF pat repl fuel ((c :: rest).drop pat.length)
      else c :: replaceAllF pat repl fuel rest := rfl

theorem splitPF_cons_eq (pat : List Char) (fuel : Nat) (c : Char)
    (rest : List Char) :
    splitPF pat (fuel + 1) (c :: rest) =
      if pat ≠ [] ∧ (c :: rest).take pat.length = pat then
        [] :: splitPF pat fuel ((c :: rest).drop pat.length)
      else
        match splitPF pat fuel rest with
        | l :: ls => (c :: l) :: ls
        | [] => [[c]] := rfl

theorem splitPF_ne_nil (pat : List Char) :
    ∀ (fuel : Nat) (s : List Char), splitPF pat fuel s ≠ [] := by
  intro fuel
  induction fuel with
  | zero => intro s; simp [splitPF]
  | succ f ih =>
    intro s
    cases s with
    | nil => simp [splitPF]
    | cons c rest =>
      rw [splitPF_cons_eq]
      split
      · simp
      · cases hsp : splitPF pat f rest with
        | nil => simp
        | cons l ls => simp

theorem replaceAllF_eq_joinWith (pat repl : List Char) :
    ∀ (fuel : Nat) (s : List Char),
      replaceAllF pat repl fuel s = joinWith repl (splitPF pat fuel s) := by
  intro fuel
  induction fuel with
  | zero => intro s; rfl
  | succ f ih =>
    intro s
    cases s with
    | nil => rfl
    | cons c rest =>
      rw [replaceAllF_cons_eq, splitPF_cons_eq]
      by_cases hcond : pat ≠ [] ∧ (c :: rest).take pat.length = pat
      · rw [if_pos hcond, if_pos hcond, ih]
        cases hsp : splitPF pat f ((c :: rest).drop pat.length) with
        | nil => exact absurd hsp (splitPF_ne_nil pat f _)
        | cons l ls => rw [joinWith]; simp
      · rw [if_neg hcond, if_neg hcond, ih]
        cases hsp : splitPF pat f rest with
        | nil => exact absurd hsp (splitPF_ne_nil pat f rest)
        | cons l ls =>
          cases ls with
          | nil => rw [joinWith, joinWith]
          | cons m ms =>
            rw [joinWith, joinWith]
            simp

theorem hasOccur_cons_eq (pat : List Char) (c : Char) (rest : List Char) :
    hasOccur pat (c :: rest)
      = (decide ((c :: rest).take pat.length = pat) || hasOccur pat rest) := rfl

theorem replaceAllF_no_occur (pat repl : List Char) :
    ∀ (fuel : Nat) (s : List Char), hasOccur pat s = false →
      replaceAllF pat repl fuel s = s := by
  intro fuel
  induction fuel with
  | zero => intro s _; rfl
  | succ f ih =>
    intro s h
    cases s with
    | nil => rfl
    | cons c rest =>
      rw [hasOccur_cons_eq] at h
      have h1 : ¬ (c :: rest).take pat.length = pat :=
        of_decide_eq_false (Bool.or_eq_false_iff.mp h).1
      have h2 : hasOccur pat rest = false := (Bool.or_eq_false_iff.mp h).2
      rw [replaceAllF_cons_eq, if_neg (fun hc => h1 hc.2), ih rest h2]

theorem replaceAll_no_occur {s pat : List Char} (repl : List Char)
    (h : hasOccur pat s = false) : replaceAll s pat repl = s :=
  replaceAllF_no_occur pat repl s.length s h

/-- C1, counterexample: on an HTML input consisting of the link tag twice
(and with stylesheet `a`, empty script), the assembler replaces BOTH
occurrences — the result is the inline style element twice, not the
inline style element followed by the untouched second tag as the claim
predicts. -/
theorem c1_counterexample :
    assemble (linkTag ++ linkTag) ['a'] [] = styleRepl ['a'] ++ styleRepl ['a'] ∧
    assemble (linkTag ++ linkTag) ['a'] [] ≠ styleRepl ['a'] ++ linkTag := by
  constructor
  · decide
  · decide

/-- C1, amended: each substitution of the HTML Assembler replaces every
non-overlapping occurrence of its literal tag, scanning left to right —
each substitution equals splitting the text on the tag and re-joining
the pieces with the replacement — not only the first occurrence; text
not part of an occurrence is left unchanged. -/
theorem c1_assemble_amended (html css js : List Char) :
    assemble html css js
      = joinWith (scriptRepl js)
          (splitP scriptTag (joinWith (styleRepl css) (splitP linkTag html))) := by
  unfold assemble replaceAll splitP
  rw [replaceAllF_eq_joinWith, replaceAllF_eq_joinWith]

/-- C8: if the link tag (respectively the script tag) does not occur in
the HTML input, the corresponding substitution returns the input
unchanged — a silent no-op, not an error. -/
theorem c8_absent_noop (html css js : List Char) :
    (hasOccur linkTag html = false →
      replaceAll html linkTag (styleRepl css) = html) ∧
    (hasOccur scriptTag html = false →
      replaceAll html scriptTag (scriptRepl js) = html) :=
  ⟨fun h => replaceAll_no_occur _ h, fun h => replaceAll_no_occur _ h⟩

theorem c8_absent_noop_witness :
    replaceAll ['x'] linkTag (styleRepl []) = ['x'] ∧
    replaceAll ['x'] scriptTag (scriptRepl []) = ['x'] :=
  ⟨(c8_absent_noop ['x'] [] []).1 (by decide),
   (c8_absent_noop ['x'] [] []).2 (by decide)⟩

theorem c2_css_amended_witness :
    3 ≤ (['a', ':', ' ', 'b'] : List Char).length ∧
    (hasAdjWS (minify_css ['a', ':', ' ', 'b']) = false ∧
      (minify_css ['a', ':', ' ', 'b']).filter (fun c => !(pyIsSpace c))
        = (stripComments ['a', ':', ' ', 'b']).filter (fun c => !(pyIsSpace c))) :=
  ⟨by decide, c2_css_amended ['a', ':', ' ', 'b'] (by decide)⟩

/-! ## Header Emitter and the run of `main` -/

/-- The seven pieces written to the destination header file by the seven
`f.write` calls of lines 65-72 of `main`, in order, with the escaped
literal as the fifth piece. -/
def header_writes (escaped : List Char) : List (List Char) :=
  ["#ifndef WEB_CONTENT_H\n".data,
   "#define WEB_CONTENT_H\n\n".data,
   "#include <pgmspace.h>\n\n".data,
   "const char INDEX_HTML[] PROGMEM = \"".data,
   escaped,
   "\";\n\n".data,
   "#endif\n".data]

/-- The full content of the destination header file. -/
def header_content (escaped : List Char) : List Char :=
  (header_writes escaped).flatten

/-- C7: for every escaped literal, the content written to the destination
header file is exactly the fixed guard pair, the fixed include, the
fixed-name array declaration holding the literal in double quotes
terminated by a semicolon, and the closing endif directive — nothing
else. -/
theorem c7_header_exact (e : List Char) :
    header_content e
      = "#ifndef WEB_CONTENT_H\n#define WEB_CONTENT_H\n\n#include <pgmspace.h>\n\nconst char INDEX_HTML[] PROGMEM = \"".data
        ++ e ++ "\";\n\n#endif\n".data := by
  unfold header_content header_writes
  simp only [List.flatten_cons, List.flatten_nil, List.append_nil,
    List.cons_append, List.nil_append, List.append_assoc]

/-- Observable events of a run, in program order. -/
inductive Ev where
  | readEv (path : String) : Ev
  | openWriteEv (path : String) : Ev
  | writeEv (content : List Char) : Ev
  | printEv (msg : String) : Ev
deriving DecidableEq

/-- `main` from the source, as a function of the file system (a map from
path to readable content, `none` meaning missing/unreadable): the trace
of file and console events in program order, and the header content
written (`none` when a read fails and the error propagates).  Reads
happen in source order; the destination is opened and written only after
all three reads succeed. -/
def run (fs : String → Option (List Char)) : List Ev × Option (List Char) :=
  match fs "data/index.html" with
  | none => ([Ev.readEv "data/index.html"], none)
  | some html =>
    match fs "data/style.css" with
    | none => ([Ev.readEv "data/index.html", Ev.readEv "data/style.css"], none)
    | some cssRaw =>
      match fs "data/app.js" with
      | none => ([Ev.readEv "data/index.html", Ev.readEv "data/style.css",
                  Ev.readEv "data/app.js"], none)
      | some jsRaw =>
        let css := minify_css cssRaw
        let js := minify_js jsRaw
        let escaped := escape_for_c (assemble html css js)
        ([Ev.readEv "data/index.html", Ev.readEv "data/style.css",
          Ev.readEv "data/app.js", Ev.openWriteEv "WebContent.h",
          Ev.writeEv (header_content escaped),
          Ev.printEv "WebContent.h regenerated successfully!",
          Ev.printEv ("Total size: " ++ toString escaped.length ++ " chars")],
         some (header_content escaped))

/-- C6: if reading any of the three input files fails, the run aborts by
propagating the error before the destination header file is opened or
written — the trace holds no open-for-write or write event and no output
content is produced. -/
theorem c6_read_failure_aborts (fs : String → Option (List Char))
    (h : fs "data/index.html" = none ∨ fs "data/style.css" = none ∨
         fs "data/app.js" = none) :
    (run fs).2 = none ∧
    ∀ e ∈ (run fs).1, (∀ p, e ≠ Ev.openWriteEv p) ∧ (∀ c, e ≠ Ev.writeEv c) := by
  cases h1 : fs "data/index.html" with
  | none => simp [run, h1]
  | some html =>
    cases h2 : fs "data/style.css" with
    | none => simp [run, h1, h2]
    | some cssRaw =>
      cases h3 : fs "data/app.js" with
      | none => simp [run, h1, h2, h3]
      | some jsRaw =>
        rcases h with h | h | h
        · rw [h1] at h; exact absurd h (by simp)
        · rw [h2] at h; exact absurd h (by simp)
        · rw [h3] at h; exact absurd h (by simp)

theorem c6_read_failure_aborts_witness :
    (run (fun _ => none)).2 = none ∧
    ∀ e ∈ (run (fun _ => none)).1,
      (∀ p, e ≠ Ev.openWriteEv p) ∧ (∀ c, e ≠ Ev.writeEv c) :=
  c6_read_failure_aborts (fun _ => none) (Or.inl rfl)
